import Mathlib

/-! # sampleONNX.hpp: a shallow embedding and its properties

The program is a single-image TensorRT classification sample
(`src/deeplearning/sampleONNX.hpp`).  The embedding follows the source
function by function:

* `getSizeByDim`        (lines 45-53)
* `preprocessImage`     (lines 74-105), the transfer loop over channel planes
* `postprocessResults`  (lines 108-135), softmax, ranking and emission loop
* `parseOnnxModel`      (lines 138-171)
* `test`                (lines 212-260), the pipeline

`std::sort` is a library function: `postprocessResults` takes it as a
parameter that meets the contract of the C++ standard, and the implementation
of libstdc++ (`bits/stl_algo.h`, `bits/stl_heap.h`) is embedded as one such
parameter.

Floating point values are idealised as elements of a linearly ordered field
`K` (instantiated with the real numbers and `Real.exp` in the theorems), and
`size_t` is a natural number reduced modulo `2 ^ 64`.  Reads outside an array
are undefined behaviour in the source; the embedding makes each of them an
explicit fault at which execution halts.
-/

namespace sampleonnx

/-! ## Machine integers -/

/-- Number of values of a `size_t` (64-bit target). -/
def sizeModulus : Nat := 2 ^ 64

/-- Conversion of a (signed) `int` to `size_t`: reduction modulo `2 ^ 64`. -/
def toSizeT (x : Int) : Nat := (x % (sizeModulus : Int)).toNat

/-- `sizeof(float)`. -/
def sizeofFloat : Nat := 4

/-! ## Tensor shapes -/

/-- The TensorRT shape descriptor `nvinfer1::Dims` (declared in `NvInfer.h`,
outside the repository): an `int nbDims` and an `int d[MAX_DIMS]` array. -/
structure Dims where
  nbDims : Int
  d : List Int
  deriving Repr, DecidableEq

/-- One iteration of the loop body of `getSizeByDim`: `size *= dims.d[i]`,
where `dims.d[i]` is converted to `size_t` and the product wraps.  Reading
past the end of `d` is a fault (`none`). -/
def getSizeByDimStep (dims : Dims) (size : Nat) (i : Nat) : Option Nat :=
  (dims.d.get? i).map (fun di => (size * toSizeT di) % sizeModulus)

/-- Lines 45-53: `size = 1; for (size_t i = 0; i < dims.nbDims; ++i) size *= dims.d[i];`.
The comparison `i < dims.nbDims` is made in `size_t`. -/
def getSizeByDim (dims : Dims) : Option Nat :=
  (List.range (toSizeT dims.nbDims)).foldlM (getSizeByDimStep dims) 1

/-- The constant `Dims::MAX_DIMS` of TensorRT, the length of the array `d`. -/
def maxDims : Nat := 8

/-- A shape descriptor as TensorRT hands it out: `d` has `MAX_DIMS` entries,
of which the first `nbDims` are the dimensions. -/
def Dims.WellFormed (dims : Dims) : Prop :=
  0 ≤ dims.nbDims ∧ dims.nbDims ≤ maxDims ∧ dims.d.length = maxDims

instance (dims : Dims) : Decidable dims.WellFormed := by
  unfold Dims.WellFormed
  infer_instance

/-- The dimensions of a shape: the first `nbDims` entries of `d`. -/
def Dims.extents (dims : Dims) : List Int :=
  dims.d.take dims.nbDims.toNat

/-! ## Device memory and the preprocessing stage -/

/-- One `float` slot of a device buffer: never written, written with a value
read past the end of a host array (indeterminate), or written with a value. -/
inductive Cell (K : Type) where
  | unwritten : Cell K
  | undef : Cell K
  | val (x : K) : Cell K
  deriving Repr, DecidableEq

/-- The value `cudaMemcpy` stores in destination slot `j`: element `j` of the
host array, indeterminate when the host array has no element `j`. -/
def hostRead {K : Type} (src : List K) (j : Nat) : Cell K :=
  match src.get? j with
  | some x => Cell.val x
  | none => Cell.undef

/-- The call `cudaMemcpy(dst, src, bytes, cudaMemcpyHostToDevice)`: the first
`bytes / sizeof(float)` slots of `dst` receive the corresponding host
elements, the other slots keep their content. -/
def cudaMemcpy {K : Type} (dst : List (Cell K)) (src : List K) (bytes : Nat) : List (Cell K) :=
  dst.enum.map (fun jc => if jc.1 < bytes / sizeofFloat then hostRead src jc.1 else jc.2)

/-- How `preprocessImage` ended. -/
inductive PreprocessExit where
  | loadFailed
  | planeOutOfRange (i : Nat)
  | done
  deriving Repr, DecidableEq

/-- Lines 99-103, the transfer loop.  Iteration `i` calls
`cudaMemcpy(gpu_input, chw[i].data, i * input_width * input_height * sizeof(float), ...)`:
the destination is `gpu_input` itself and the byte count is computed in
`size_t`.  `todo` counts the iterations that remain. -/
def transferLoop {K : Type} (chw : List (List K)) (input_width input_height : Int) :
    Nat → Nat → List (Cell K) → List (Cell K) × PreprocessExit
  | 0, _, gpu_input => (gpu_input, PreprocessExit.done)
  | todo + 1, i, gpu_input =>
    match chw.get? i with
    | none => (gpu_input, PreprocessExit.planeOutOfRange i)
    | some plane =>
      transferLoop chw input_width input_height todo (i + 1)
        (cudaMemcpy gpu_input plane
          ((i * toSizeT input_width * toSizeT input_height * sizeofFloat) % sizeModulus))

/-- Lines 74-105.  The OpenCV chain (`imread`, `resize`, `convertTo`,
`subtract`, `divide`, `split`) is an external library: its result is the
argument `chw`, the normalized channel planes of the resized image, or `none`
when `frame.empty()`.  On an empty frame the function reports the failure and
returns, leaving the buffer untouched. -/
def preprocessImage {K : Type} (chw : Option (List (List K))) (gpu_input : List (Cell K))
    (dims : Dims) : List (Cell K) × PreprocessExit :=
  match chw with
  | none => (gpu_input, PreprocessExit.loadFailed)
  | some planes =>
    let input_width := dims.d.getD 3 0
    let input_height := dims.d.getD 2 0
    let channels := dims.d.getD 1 0
    transferLoop planes input_width input_height (toSizeT channels) 0 gpu_input

/-- The layout the engine's input binding expects: plane `c` at offset
`c * H * W`, planes one after the other without padding. -/
def planarLayout {K : Type} (chw : List (List K)) : List (Cell K) :=
  (chw.map (fun plane => plane.map Cell.val)).flatten

/-! ## `std::sort` -/

/-- The requirement `std::sort` puts on its comparator: a strict weak ordering. -/
structure StrictWeak (comp : Nat → Nat → Bool) : Prop where
  irrefl : ∀ a, comp a a = false
  trans : ∀ a b c, comp a b = true → comp b c = true → comp a c = true
  negTrans : ∀ a b c, comp a b = false → comp b c = false → comp a c = false

/-- What the C++ standard guarantees of `std::sort(first, last, comp)`: for a
strict weak ordering the result is a rearrangement of the input in which no
element is ordered before an earlier one.  The relative order of equivalent
elements is not part of the contract. -/
structure StdSort where
  sort : (Nat → Nat → Bool) → List Nat → List Nat
  perm : ∀ comp l, StrictWeak comp → (sort comp l).Perm l
  sorted : ∀ comp l, StrictWeak comp → (sort comp l).Pairwise (fun a b => comp b a = false)

/-- Insertion of `x` into a sorted list, in front of the first element that
is not ordered before `x`. -/
def insertBefore (comp : Nat → Nat → Bool) (x : Nat) : List Nat → List Nat
  | [] => [x]
  | y :: ys => if comp y x then y :: insertBefore comp x ys else x :: y :: ys

/-- Insertion sort; equivalent elements keep their order. -/
def insertionSortBy (comp : Nat → Nat → Bool) : List Nat → List Nat
  | [] => []
  | x :: xs => insertBefore comp x (insertionSortBy comp xs)

/-- Insertion sort after a rearrangement `pre` of the input meets the contract
of `std::sort`. -/
def insertionStdSort (pre : List Nat → List Nat) (hpre : ∀ l, (pre l).Perm l) : StdSort where
  sort comp l := insertionSortBy comp (pre l)
  perm comp l _ := by
    have hins : ∀ (x : Nat) (ys : List Nat), (insertBefore comp x ys).Perm (x :: ys) := by
      intro x ys
      induction ys with
      | nil => exact List.Perm.refl _
      | cons y ys ih =>
        unfold insertBefore
        split
        · exact ((List.Perm.cons y ih).trans (List.Perm.swap x y ys))
        · exact List.Perm.refl _
    have hsort : ∀ xs : List Nat, (insertionSortBy comp xs).Perm xs := by
      intro xs
      induction xs with
      | nil => exact List.Perm.refl _
      | cons x xs ih => exact (hins x _).trans (List.Perm.cons x ih)
    exact (hsort (pre l)).trans (hpre l)
  sorted comp l h := by
    have hins : ∀ (x : Nat) (ys : List Nat), ys.Pairwise (fun a b => comp b a = false) →
        (insertBefore comp x ys).Pairwise (fun a b => comp b a = false) := by
      intro x ys
      induction ys with
      | nil => intro _; simp [insertBefore]
      | cons y ys ih =>
        intro hp
        have hy := (List.pairwise_cons.1 hp).1
        have hys := (List.pairwise_cons.1 hp).2
        unfold insertBefore
        split
        · rename_i hyx
          refine List.Pairwise.cons ?_ (ih hys)
          intro b hb
          have hb2 : b = x ∨ b ∈ ys := by
            have := (show (insertBefore comp x ys).Perm (x :: ys) from by
              clear ih hp hy hys hb
              induction ys with
              | nil => exact List.Perm.refl _
              | cons z zs ih2 =>
                unfold insertBefore
                split
                · exact ((List.Perm.cons z ih2).trans (List.Perm.swap x z zs))
                · exact List.Perm.refl _).subset hb
            simpa using this
          rcases hb2 with rfl | hb2
          · cases hc : comp b y with
            | false => rfl
            | true => have := h.trans _ _ _ hc hyx; rw [h.irrefl] at this; exact absurd this (by simp)
          · exact hy b hb2
        · rename_i hyx
          have hyx2 : comp y x = false := by simpa using hyx
          refine List.Pairwise.cons ?_ hp
          intro b hb
          rcases List.mem_cons.1 hb with rfl | hb2
          · exact hyx2
          · exact h.negTrans _ _ _ (hy b hb2) hyx2
    have hsort : ∀ xs : List Nat, (insertionSortBy comp xs).Pairwise (fun a b => comp b a = false) := by
      intro xs
      induction xs with
      | nil => exact List.Pairwise.nil
      | cons x xs ih => exact hins x _ ih
    exact hsort (pre l)

/-- A conforming `std::sort` that keeps equivalent elements in their order (the
behaviour of the insertion sort common implementations use on short ranges). -/
def stableSort : StdSort := insertionStdSort id (fun l => List.Perm.refl l)

/-! ## `std::sort` as implemented in libstdc++

The functions of `bits/stl_algo.h` and `bits/stl_heap.h` behind `std::sort`,
on a range given as the list of its elements (position 0 is `first`).  A hole
that the library moves through the range while it holds the value aside is a
value that moves by swaps.  The unguarded loops rely on a sentinel inside the
range, which a strict weak ordering provides; here they stop at the end of the
range in any case. -/

/-- `std::iter_swap` on the positions `i` and `j` of a range. -/
def iterSwap (s : List Nat) (i j : Nat) : List Nat :=
  if i < s.length ∧ j < s.length then (s.set i (s.getD j 0)).set j (s.getD i 0) else s

/-- The loop `while (comp(first, pivot)) ++first;` of `__unguarded_partition`. -/
def scanUp (comp : Nat → Nat → Bool) (s : List Nat) (pivot first : Nat) : Nat :=
  first + ((s.drop first).takeWhile (fun x => comp x pivot)).length

/-- The steps `--last; while (comp(pivot, last)) --last;` of `__unguarded_partition`. -/
def scanDown (comp : Nat → Nat → Bool) (s : List Nat) (pivot last : Nat) : Nat :=
  last - 1 - ((s.take (last - 1 + 1)).reverse.takeWhile (fun x => comp pivot x)).length

/-- The outer loop of `__unguarded_partition`; every round lowers `last`, and
`fuel` bounds the number of rounds. -/
def unguardedPartition (comp : Nat → Nat → Bool) (pivot : Nat) :
    Nat → List Nat → Nat → Nat → List Nat × Nat
  | 0, s, first, _ => (s, first)
  | fuel + 1, s, first, last =>
    if scanUp comp s pivot first < scanDown comp s pivot last then
      unguardedPartition comp pivot fuel
        (iterSwap s (scanUp comp s pivot first) (scanDown comp s pivot last))
        (scanUp comp s pivot first + 1) (scanDown comp s pivot last)
    else (s, scanUp comp s pivot first)

/-- `__push_heap`; the value sits in the hole and moves up by swaps. -/
def pushHeap (comp : Nat → Nat → Bool) (value topIndex : Nat) : Nat → List Nat → Nat → List Nat
  | 0, s, _ => s
  | fuel + 1, s, holeIndex =>
    if holeIndex > topIndex ∧ comp (s.getD ((holeIndex - 1) / 2) 0) value then
      pushHeap comp value topIndex fuel (iterSwap s holeIndex ((holeIndex - 1) / 2))
        ((holeIndex - 1) / 2)
    else s

/-- The child `__adjust_heap` moves the hole to. -/
def largerChild (comp : Nat → Nat → Bool) (s : List Nat) (secondChild : Nat) : Nat :=
  if comp (s.getD (2 * (secondChild + 1)) 0) (s.getD (2 * (secondChild + 1) - 1) 0)
  then 2 * (secondChild + 1) - 1 else 2 * (secondChild + 1)

/-- The first loop of `__adjust_heap`: the hole goes down to a leaf. -/
def siftDown (comp : Nat → Nat → Bool) (len : Nat) : Nat → List Nat → Nat → List Nat × Nat
  | 0, s, secondChild => (s, secondChild)
  | fuel + 1, s, secondChild =>
    if secondChild < (len - 1) / 2 then
      siftDown comp len fuel (iterSwap s secondChild (largerChild comp s secondChild))
        (largerChild comp s secondChild)
    else (s, secondChild)

/-- One printed prediction: `class: <name> | confidence: <c>% | index: <i>`,
the class part being optional. -/
structure PredictionLine (K : Type) where
  className : Option String
  confidence : K
  index : Nat
  deriving Repr, DecidableEq

/-- How the printing loop of `postprocessResults` ended. -/
inductive LoopExit where
  | belowThreshold
  | indicesOutOfRange (i : Nat)
  | scoresOutOfRange (idx : Nat)
  | labelOutOfRange (idx : Nat)
  | outOfFuel
  deriving Repr, DecidableEq

/-- Line 118: `std::transform(..., [](float val) {return std::exp(val);})`. -/
def expTransform {K : Type} (expf : K → K) (cpu_output : List K) : List K :=
  cpu_output.map expf

/-- Line 119: `std::accumulate(cpu_output.begin(), cpu_output.end(), 0.0)`. -/
def accumulate {K : Type} [LinearOrderedField K] (cpu_output : List K) : K :=
  cpu_output.foldl (fun acc v => acc + v) 0

/-- Line 123, the comparator `cpu_output[i1] > cpu_output[i2]`.  `std::sort`
only calls it on elements of `indices`, which are positions of `cpu_output`. -/
def scoreGreater {K : Type} [LinearOrderedField K] (cpu_output : List K) (i1 i2 : Nat) : Bool :=
  decide (cpu_output.getD i1 0 > cpu_output.getD i2 0)

/-- Lines 121-123: `indices` is `0, 1, ..., n-1` (`std::iota`) sorted with
`scoreGreater`. -/
def ranking {K : Type} [LinearOrderedField K] (S : StdSort) (cpu_output : List K) : List Nat :=
  S.sort (scoreGreater cpu_output) (List.range cpu_output.length)

/-- The quotient `cpu_output[idx] / sum` tested by the loop condition. -/
def probability {K : Type} [LinearOrderedField K] (cpu_output : List K) (sum : K) (idx : Nat) : K :=
  cpu_output.getD idx 0 / sum

/-- Lines 128-132, the body of the loop for class `idx` with transformed
score `v`: the class name is printed when `classes.size() > indices[i]`. -/
def printLine {K : Type} [LinearOrderedField K] (classes : List String) (v sum : K) (idx : Nat) :
    Except LoopExit (PredictionLine K) :=
  if classes.length > idx then
    match classes.get? idx with
    | some name => Except.ok ⟨some name, 100 * v / sum, idx⟩
    | none => Except.error (LoopExit.labelOutOfRange idx)
  else Except.ok ⟨none, 100 * v / sum, idx⟩

/-- Lines 125-134: `int i = 0; while (cpu_output[indices[i]] / sum > 0.005) { ...; ++i; }`.
The source has no test of `i` against the length of `indices`. -/
def emitLoop {K : Type} [LinearOrderedField K] (classes : List String) (cpu_output : List K)
    (sum : K) (indices : List Nat) :
    Nat → Nat → List (PredictionLine K) → List (PredictionLine K) × LoopExit
  | 0, _, printed => (printed, LoopExit.outOfFuel)
  | fuel + 1, i, printed =>
    match indices.get? i with
    | none => (printed, LoopExit.indicesOutOfRange i)
    | some idx =>
      match cpu_output.get? idx with
      | none => (printed, LoopExit.scoresOutOfRange idx)
      | some v =>
        if v / sum > 0.005 then
          match printLine classes v sum idx with
          | Except.ok line => emitLoop classes cpu_output sum indices fuel (i + 1) (printed ++ [line])
          | Except.error e => (printed, e)
        else (printed, LoopExit.belowThreshold)

/-- Lines 108-135.  `gpu_output` is the vector of the
`getSizeByDim(dims) * batch_size` floats that line 115 copies from the
device, `classes` the label table read by `getClassNames`.  The result is the
sequence of printed lines and the way the loop ended. -/
def postprocessResults {K : Type} [LinearOrderedField K] (S : StdSort) (expf : K → K)
    (classes : List String) (gpu_output : List K) : List (PredictionLine K) × LoopExit :=
  let cpu_output := expTransform expf gpu_output
  let sum := accumulate cpu_output
  let indices := ranking S cpu_output
  emitLoop classes cpu_output sum indices (indices.length + 1) 0 []

/-- The loop condition for class `idx`: `cpu_output[idx] / sum > 0.005`. -/
def aboveThreshold {K : Type} [LinearOrderedField K] (cpu_output : List K) (sum : K)
    (idx : Nat) : Bool :=
  decide (probability cpu_output sum idx > 0.005)

/-- The line for class `idx` with a bounds-checked label lookup: the name is
the table entry at `idx` when `idx` is below the table length, absent otherwise. -/
def lineOf {K : Type} [LinearOrderedField K] (classes : List String) (cpu_output : List K)
    (sum : K) (idx : Nat) : PredictionLine K :=
  ⟨if h : idx < classes.length then some (classes.get ⟨idx, h⟩) else none,
   100 * cpu_output.getD idx 0 / sum, idx⟩

/-! ## Engine construction and the pipeline -/

/-- One binding of a compiled engine, as seen through `bindingIsInput` and
`getBindingDimensions`. -/
structure Binding where
  isInput : Bool
  dims : Dims
  deriving Repr, DecidableEq

/-- The compiled engine `nvinfer1::ICudaEngine`, as far as `test` inspects
it: its bindings, in binding-index order. -/
structure Engine where
  bindings : List Binding
  deriving Repr, DecidableEq

/-- What the external parser and builder do with the model file: the parse
fails, or the parse succeeds and `buildEngineWithConfig` yields no engine, or
an engine is built. -/
inductive ModelLoad where
  | parseFailed
  | buildFailed
  | built (engine : Engine)
  deriving Repr, DecidableEq

/-- The observable steps of a run. -/
inductive Event where
  | parseError
  | getNbBindings
  | cudaMalloc (binding : Nat) (bytes : Nat)
  | configError
  | imageLoadFailed
  | inputTransfer
  | enqueue
  | postprocess
  | cudaFree (binding : Nat)
  deriving Repr, DecidableEq

/-- How a run of `test` ended: it returned, or it reached undefined behaviour. -/
inductive PipelineExit where
  | returned
  | nullEngineDereference
  | dimsOutOfRange (binding : Nat)
  | preprocessFault (i : Nat)
  | postprocessFault (e : LoopExit)
  deriving Repr, DecidableEq

/-- Lines 138-171.  On a parse failure the function prints the error and
returns with `engine` and `context` still null (lines 148-152).  Otherwise
`engine` is reset to the result of the builder, and line 170 calls
`engine->createExecutionContext()` on it. -/
def parseOnnxModel (load : ModelLoad) : List Event × Except PipelineExit (Option Engine) :=
  match load with
  | ModelLoad.parseFailed => ([Event.parseError], Except.ok none)
  | ModelLoad.buildFailed => ([], Except.error PipelineExit.nullEngineDereference)
  | ModelLoad.built engine => ([], Except.ok (some engine))

/-- Lines 227-239, the allocation part of the loop over the bindings from
index `i` on: `binding_size = getSizeByDim(...) * batch_size * sizeof(float)`
and `cudaMalloc(&buffers[i], binding_size)`.  The result is the list of
events and the byte size of each buffer. -/
def allocateBuffers (batch_size : Nat) :
    List Binding → Nat → List Event → List Nat → Except (List Event × PipelineExit) (List Event × List Nat)
  | [], _, events, sizes => Except.ok (events, sizes)
  | b :: rest, i, events, sizes =>
    match getSizeByDim b.dims with
    | none => Except.error (events, PipelineExit.dimsOutOfRange i)
    | some n =>
      let binding_size := (n * batch_size * sizeofFloat) % sizeModulus
      allocateBuffers batch_size rest (i + 1) (events ++ [Event.cudaMalloc i binding_size])
        (sizes ++ [binding_size])

/-- The `cudaMalloc` events of bindings `i`, `i + 1`, ... with the given byte sizes. -/
def mallocEvents : Nat → List Nat → List Event
  | _, [] => []
  | i, size :: sizes => Event.cudaMalloc i size :: mallocEvents (i + 1) sizes

/-- Lines 256-259: `for (void* buf : buffers) cudaFree(buf);`. -/
def freeBuffers (sizes : List Nat) : List Event :=
  (List.range sizes.length).map Event.cudaFree

/-- The record of a run of `test`. -/
structure Run (K : Type) where
  events : List Event
  input : List (Cell K)
  printed : List (PredictionLine K)
  exit : PipelineExit

/-- Lines 212-260.  The external world is given by the arguments: `load`
(parser and builder), `chw` (image decoding and normalisation), `classes`
(label file), `infer` (the floats that `postprocessResults` copies from
`buffers[1]` once the engine has run on the given content of `buffers[0]`).
`batch_size` is 1. -/
def test {K : Type} [LinearOrderedField K] (S : StdSort) (expf : K → K) (load : ModelLoad)
    (chw : Option (List (List K))) (classes : List String)
    (infer : List (Cell K) → List K) : Run K :=
  let batch_size : Nat := 1
  match parseOnnxModel load with
  | (ev, Except.error e) => ⟨ev, [], [], e⟩
  | (ev, Except.ok none) =>
    -- line 226: `engine->getNbBindings()` with `engine` null
    ⟨ev ++ [Event.getNbBindings], [], [], PipelineExit.nullEngineDereference⟩
  | (ev, Except.ok (some engine)) =>
    match allocateBuffers batch_size engine.bindings 0 (ev ++ [Event.getNbBindings]) [] with
    | Except.error (ev1, e) => ⟨ev1, [], [], e⟩
    | Except.ok (ev1, sizes) =>
      let input_dims := (engine.bindings.filter (fun b => b.isInput)).map (fun b => b.dims)
      let output_dims := (engine.bindings.filter (fun b => !b.isInput)).map (fun b => b.dims)
      match input_dims, output_dims with
      | [], _ => ⟨ev1 ++ [Event.configError], [], [], PipelineExit.returned⟩
      | _ :: _, [] => ⟨ev1 ++ [Event.configError], [], [], PipelineExit.returned⟩
      | in0 :: _, _ :: _ =>
        let buffer0 : List (Cell K) := List.replicate (sizes.getD 0 0 / sizeofFloat) Cell.unwritten
        match preprocessImage chw buffer0 in0 with
        | (input, PreprocessExit.planeOutOfRange i) =>
          ⟨ev1 ++ [Event.inputTransfer], input, [], PipelineExit.preprocessFault i⟩
        | (input, pre) =>
          let ev2 := ev1 ++ [if pre = PreprocessExit.loadFailed then Event.imageLoadFailed
                             else Event.inputTransfer]
          let ev3 := ev2 ++ [Event.enqueue, Event.postprocess]
          match postprocessResults S expf classes (infer input) with
          | (printed, LoopExit.belowThreshold) =>
            ⟨ev3 ++ freeBuffers sizes, input, printed, PipelineExit.returned⟩
          | (printed, e) => ⟨ev3, input, printed, PipelineExit.postprocessFault e⟩

/-- The effect of one event on the list of device buffers that are allocated
and not freed. -/
def liveStep (live : List Nat) (e : Event) : List Nat :=
  match e with
  | Event.cudaMalloc b _ => live ++ [b]
  | Event.cudaFree b => live.erase b
  | _ => live

/-- The device buffers allocated and not yet freed after a sequence of events. -/
def liveBuffers (events : List Event) : List Nat :=
  events.foldl liveStep []

/-! ## Properties of `getSizeByDim` -/

theorem toSizeT_cast (x : Int) : ((toSizeT x : Nat) : Int) = x % (sizeModulus : Int) := by
  unfold toSizeT
  exact Int.toNat_of_nonneg (Int.emod_nonneg _ (by simp [sizeModulus]))

theorem foldlM_range_getSizeByDim (dims : Dims) :
    ∀ k, k ≤ dims.d.length →
      (List.range k).foldlM (getSizeByDimStep dims) 1
        = some (((dims.d.take k).map toSizeT).prod % sizeModulus) := by
  intro k
  induction k with
  | zero => intro _; simp [sizeModulus]
  | succ k ih =>
    intro hk
    have hk2 : k < dims.d.length := hk
    rw [List.range_succ, List.foldlM_append, ih (Nat.le_of_lt hk2)]
    simp only [List.foldlM_cons, List.foldlM_nil, Option.some_bind, getSizeByDimStep]
    rw [List.take_succ, List.get?_eq_getElem?, List.getElem?_eq_getElem hk2]
    simp only [Option.map_some', Option.toList_some, List.map_append, List.prod_append,
      List.map_cons, List.map_nil, List.prod_cons, List.prod_nil, mul_one]
    simp [Nat.mod_mul_mod]

theorem prod_toSizeT_emod (l : List Int) :
    (((l.map toSizeT).prod : Nat) : Int) % (sizeModulus : Int) = l.prod % (sizeModulus : Int) := by
  induction l with
  | nil => simp
  | cons x xs ih =>
    simp only [List.map_cons, List.prod_cons, Nat.cast_mul, toSizeT_cast]
    rw [Int.mul_emod, ih, Int.emod_emod_of_dvd _ (dvd_refl _), ← Int.mul_emod]

theorem getSizeByDim_eq (dims : Dims) (h : dims.WellFormed) :
    getSizeByDim dims = some ((dims.extents.map toSizeT).prod % sizeModulus) := by
  obtain ⟨h0, h1, h2⟩ := h
  have hnb : toSizeT dims.nbDims = dims.nbDims.toNat := by
    unfold toSizeT
    rw [Int.emod_eq_of_lt h0]
    have : (maxDims : Int) < (sizeModulus : Int) := by simp [maxDims, sizeModulus]
    omega
  unfold getSizeByDim Dims.extents
  rw [hnb]
  apply foldlM_range_getSizeByDim
  rw [h2]
  omega

/-- C4. For a well-formed shape whose dimensions are all positive and whose
product fits a `size_t`, `getSizeByDim` returns the arithmetic product of the
`nbDims` dimensions; for a well-formed shape with non-negative dimensions one
of which is zero it returns 0. -/
theorem getSizeByDim_product (dims : Dims) (h : dims.WellFormed) :
    ((∀ x ∈ dims.extents, 0 < x) → dims.extents.prod < (sizeModulus : Int) →
        getSizeByDim dims = some dims.extents.prod.toNat) ∧
    ((∀ x ∈ dims.extents, 0 ≤ x) → 0 ∈ dims.extents → getSizeByDim dims = some 0) := by
  rw [getSizeByDim_eq dims h]
  constructor
  · intro hpos hfit
    have hnn : 0 ≤ dims.extents.prod := List.prod_nonneg (fun x hx => le_of_lt (hpos x hx))
    have hmod := prod_toSizeT_emod dims.extents
    rw [Int.emod_eq_of_lt hnn hfit] at hmod
    congr 1
    have : (((dims.extents.map toSizeT).prod % sizeModulus : Nat) : Int) = dims.extents.prod := by
      rw [Int.natCast_mod, hmod]
    omega
  · intro _ hz
    have : (dims.extents.map toSizeT).prod = 0 := by
      apply List.prod_eq_zero
      exact List.mem_map.2 ⟨0, hz, by simp [toSizeT]⟩
    rw [this]
    simp

/-- Witness of C4: the shape (1,3,4,4) has 48 elements, the shape (2,0,5) has none. -/
theorem getSizeByDim_product_witness :
    getSizeByDim ⟨4, [1, 3, 4, 4, 0, 0, 0, 0]⟩ = some 48 ∧
    getSizeByDim ⟨3, [2, 0, 5, 0, 0, 0, 0, 0]⟩ = some 0 :=
  ⟨(getSizeByDim_product ⟨4, [1, 3, 4, 4, 0, 0, 0, 0]⟩ (by decide)).1 (by decide) (by decide),
   (getSizeByDim_product ⟨3, [2, 0, 5, 0, 0, 0, 0, 0]⟩ (by decide)).2 (by decide) (by decide)⟩

/-! ## Softmax -/

theorem accumulate_eq_sum {K : Type} [LinearOrderedField K] (l : List K) :
    accumulate l = l.sum := by
  unfold accumulate
  rw [List.sum_eq_foldl]

theorem map_getD_range {K : Type} (l : List K) (z : K) :
    (List.range l.length).map (fun i => l.getD i z) = l := by
  apply List.ext_getElem
  · simp
  · intro i h1 h2
    simp [List.getD_eq_getElem?_getD, List.getElem?_eq_getElem h2]

theorem sum_probability {K : Type} [LinearOrderedField K] (l : List K) (s : K) :
    ((List.range l.length).map (probability l s)).sum = l.sum / s := by
  have h : (List.range l.length).map (probability l s)
      = ((List.range l.length).map (fun i => l.getD i 0)).map (fun v => v / s) := by
    simp [probability, Function.comp_def]
  rw [h, map_getD_range]
  clear h
  induction l with
  | nil => simp
  | cons x xs ih => simp [ih, add_div]

theorem sum_expTransform_pos (scores : List ℝ) (h : scores ≠ []) :
    0 < (expTransform Real.exp scores).sum := by
  cases scores with
  | nil => exact absurd rfl h
  | cons x xs =>
    simp only [expTransform, List.map_cons, List.sum_cons]
    have : 0 ≤ (xs.map Real.exp).sum :=
      List.sum_nonneg (fun y hy => by
        obtain ⟨z, _, rfl⟩ := List.mem_map.1 hy
        exact le_of_lt (Real.exp_pos z))
    linarith [Real.exp_pos x]

theorem getD_expTransform_nonneg (scores : List ℝ) (idx : Nat) :
    0 ≤ (expTransform Real.exp scores).getD idx 0 := by
  rw [List.getD_eq_getElem?_getD]
  cases h : (expTransform Real.exp scores)[idx]? with
  | none => simp
  | some v =>
    have hm : v ∈ expTransform Real.exp scores := List.getElem?_mem h
    obtain ⟨z, _, rfl⟩ := List.mem_map.1 hm
    exact le_of_lt (Real.exp_pos z)

theorem sum_probability_expTransform (scores : List ℝ) (h : scores ≠ []) :
    ((List.range scores.length).map
      (probability (expTransform Real.exp scores)
        (accumulate (expTransform Real.exp scores)))).sum = 1 := by
  have hpos := sum_expTransform_pos scores h
  have hlen : scores.length = (expTransform Real.exp scores).length := by
    simp [expTransform]
  rw [accumulate_eq_sum, hlen, sum_probability]
  exact div_self (ne_of_gt hpos)

/-- C3. Over the real numbers, for every non-empty score vector the
quotients `exp(score_i) / sum` that `postprocessResults` computes are all
non-negative and add up to 1. -/
theorem softmax_distribution (scores : List ℝ) (h : scores ≠ []) :
    (∀ idx, idx < scores.length →
      0 ≤ probability (expTransform Real.exp scores)
            (accumulate (expTransform Real.exp scores)) idx) ∧
    ((List.range scores.length).map
      (probability (expTransform Real.exp scores)
        (accumulate (expTransform Real.exp scores)))).sum = 1 := by
  refine ⟨?_, sum_probability_expTransform scores h⟩
  intro idx _
  have hpos := sum_expTransform_pos scores h
  rw [accumulate_eq_sum]
  exact div_nonneg (getD_expTransform_nonneg scores idx) (le_of_lt hpos)

/-- Witness of C3 at the score vector `[0, 1]`. -/
theorem softmax_distribution_witness :
    ([0, 1] : List ℝ) ≠ [] ∧
    ((∀ idx, idx < ([0, 1] : List ℝ).length →
      0 ≤ probability (expTransform Real.exp [0, 1])
            (accumulate (expTransform Real.exp [0, 1])) idx) ∧
    ((List.range ([0, 1] : List ℝ).length).map
      (probability (expTransform Real.exp [0, 1])
        (accumulate (expTransform Real.exp [0, 1])))).sum = 1) :=
  ⟨by simp, softmax_distribution [0, 1] (by simp)⟩

/-! ## The ranking -/

theorem scoreGreater_strictWeak {K : Type} [LinearOrderedField K] (cpu_output : List K) :
    StrictWeak (scoreGreater cpu_output) where
  irrefl a := by simp [scoreGreater]
  trans a b c h1 h2 := by
    simp only [scoreGreater, decide_eq_true_eq, gt_iff_lt] at *
    exact lt_trans h2 h1
  negTrans a b c h1 h2 := by
    simp only [scoreGreater, decide_eq_false_iff_not, gt_iff_lt, not_lt] at *
    exact le_trans h1 h2

theorem ranking_perm {K : Type} [LinearOrderedField K] (S : StdSort) (cpu_output : List K) :
    (ranking S cpu_output).Perm (List.range cpu_output.length) :=
  S.perm _ _ (scoreGreater_strictWeak cpu_output)

theorem ranking_sorted {K : Type} [LinearOrderedField K] (S : StdSort) (cpu_output : List K) :
    (ranking S cpu_output).Pairwise (fun a b => cpu_output.getD b 0 ≤ cpu_output.getD a 0) := by
  have h := S.sorted _ (List.range cpu_output.length) (scoreGreater_strictWeak cpu_output)
  refine List.Pairwise.imp ?_ h
  intro a b hab
  simpa [scoreGreater] using hab

theorem ranking_example_stable :
    ranking stableSort (expTransform Real.exp ([2, 5, 5, 1] : List ℝ)) = [1, 2, 0, 3] := by
  have hr : List.range 4 = [0, 1, 2, 3] := rfl
  norm_num [ranking, stableSort, insertionStdSort, expTransform, hr, insertionSortBy, insertBefore,
    scoreGreater]

theorem ranking_of_strictly_decreasing {K : Type} [LinearOrderedField K] (S : StdSort)
    (cpu_output : List K) (h : cpu_output.Pairwise (fun a b => a > b)) :
    ranking S cpu_output = List.range cpu_output.length := by
  have hp := ranking_perm S cpu_output
  have hs := ranking_sorted S cpu_output
  have hnd : (ranking S cpu_output).Nodup := hp.nodup_iff.2 (List.nodup_range _)
  have hmem : ∀ a ∈ ranking S cpu_output, a < cpu_output.length :=
    fun a ha => List.mem_range.1 (hp.subset ha)
  have hlt : (ranking S cpu_output).Pairwise (fun a b => a < b) := by
    refine (hs.and hnd).imp_of_mem ?_
    intro a b ha hb hab
    obtain ⟨hle, hne⟩ := hab
    by_contra hcon
    have hba : b < a := lt_of_le_of_ne (not_lt.1 hcon) (Ne.symm hne)
    have hla : a < cpu_output.length := hmem a ha
    have hlb : b < cpu_output.length := hmem b hb
    have hgt := List.pairwise_iff_getElem.1 h b a hlb hla hba
    have e1 : cpu_output.getD a 0 = cpu_output[a] := by
      simp [List.getD_eq_getElem?_getD, List.getElem?_eq_getElem hla]
    have e2 : cpu_output.getD b 0 = cpu_output[b] := by
      simp [List.getD_eq_getElem?_getD, List.getElem?_eq_getElem hlb]
    rw [e1, e2] at hle
    exact absurd hgt (not_lt.2 hle)
  exact List.eq_of_perm_of_sorted hp hlt (List.sorted_lt_range _)

theorem scanDown_le (comp : Nat → Nat → Bool) (s : List Nat) (pivot last : Nat) :
    scanDown comp s pivot last ≤ last - 1 := by
  unfold scanDown
  omega

/-- More fuel than `last` does not change the result of `__unguarded_partition`:
every round lowers `last`, so the loop ends by its own test. -/
theorem unguardedPartition_fuel (comp : Nat → Nat → Bool) (pivot : Nat) :
    ∀ (fuel : Nat) (s : List Nat) (first last : Nat), last < fuel →
      unguardedPartition comp pivot (fuel + 1) s first last
        = unguardedPartition comp pivot fuel s first last := by
  intro fuel
  induction fuel with
  | zero => intro s first last h; omega
  | succ fuel ih =>
    intro s first last h
    rw [unguardedPartition]
    conv => rhs; rw [unguardedPartition]
    split
    · rename_i hc
      have := scanDown_le comp s pivot last
      exact ih _ _ _ (by omega)
    · rfl

/-- More fuel than the hole index does not change the result of `__push_heap`. -/
theorem pushHeap_fuel (comp : Nat → Nat → Bool) (value topIndex : Nat) :
    ∀ (fuel : Nat) (s : List Nat) (holeIndex : Nat), holeIndex ≤ fuel →
      pushHeap comp value topIndex (fuel + 1) s holeIndex
        = pushHeap comp value topIndex fuel s holeIndex := by
  intro fuel
  induction fuel with
  | zero =>
    intro s holeIndex h
    have h0 : holeIndex = 0 := by omega
    subst h0
    simp [pushHeap]
  | succ fuel ih =>
    intro s holeIndex h
    rw [pushHeap]
    conv => rhs; rw [pushHeap]
    split
    · exact ih _ _ (by omega)
    · rfl

theorem largerChild_gt (comp : Nat → Nat → Bool) (s : List Nat) (secondChild : Nat) :
    secondChild < largerChild comp s secondChild := by
  unfold largerChild
  split <;> omega

/-- Fuel `len` is enough for the first loop of `__adjust_heap`: the hole index
grows in every round and the loop ends below `(len - 1) / 2`. -/
theorem siftDown_fuel (comp : Nat → Nat → Bool) (len : Nat) :
    ∀ (fuel : Nat) (s : List Nat) (secondChild : Nat), (len - 1) / 2 - secondChild ≤ fuel →
      siftDown comp len (fuel + 1) s secondChild = siftDown comp len fuel s secondChild := by
  intro fuel
  induction fuel with
  | zero =>
    intro s secondChild h
    have hn : ¬ secondChild < (len - 1) / 2 := by omega
    simp [siftDown, hn]
  | succ fuel ih =>
    intro s secondChild h
    rw [siftDown]
    conv => rhs; rw [siftDown]
    split
    · have := largerChild_gt comp s secondChild
      exact ih _ _ (by omega)
    · rfl

/-- The hole stays inside the heap while it goes down, so that the fuel `len`
of the `__push_heap` that follows is at least the hole index. -/
theorem siftDown_index_le (comp : Nat → Nat → Bool) (len : Nat) :
    ∀ (fuel : Nat) (s : List Nat) (secondChild : Nat), secondChild ≤ len - 1 →
      (siftDown comp len fuel s secondChild).2 ≤ len - 1 := by
  intro fuel
  induction fuel with
  | zero => intro s secondChild h; exact h
  | succ fuel ih =>
    intro s secondChild h
    rw [siftDown]
    split
    · rename_i hc
      apply ih
      unfold largerChild
      split <;> omega
    · exact h

/-! ## The ranking under the `std::sort` of libstdc++ -/

theorem printLine_eq {K : Type} [LinearOrderedField K] (classes : List String)
    (cpu_output : List K) (sum : K) (idx : Nat) :
    printLine classes (cpu_output.getD idx 0) sum idx
      = Except.ok (lineOf classes cpu_output sum idx) := by
  unfold printLine lineOf
  by_cases h : idx < classes.length
  · simp [h, List.get?_eq_getElem?, List.getElem?_eq_getElem h]
  · simp [h]

theorem emitLoop_eq {K : Type} [LinearOrderedField K] (classes : List String)
    (cpu_output : List K) (sum : K) (indices : List Nat)
    (hidx : ∀ idx ∈ indices, idx < cpu_output.length) :
    ∀ (fuel i : Nat) (printed : List (PredictionLine K)),
      i ≤ indices.length → indices.length + 1 ≤ fuel + i →
      emitLoop classes cpu_output sum indices fuel i printed =
        (printed ++ ((indices.drop i).takeWhile (aboveThreshold cpu_output sum)).map
            (lineOf classes cpu_output sum),
         if (indices.drop i).all (aboveThreshold cpu_output sum)
           then LoopExit.indicesOutOfRange indices.length else LoopExit.belowThreshold) := by
  intro fuel
  induction fuel with
  | zero => intro i printed h1 h2; omega
  | succ fuel ih =>
    intro i printed h1 h2
    unfold emitLoop
    rcases Nat.lt_or_ge i indices.length with hi | hi
    · have hmem : indices[i] ∈ indices := List.getElem_mem hi
      have hlt := hidx _ hmem
      rw [List.get?_eq_getElem?, List.getElem?_eq_getElem hi]
      simp only
      rw [List.get?_eq_getElem?, List.getElem?_eq_getElem hlt]
      simp only
      have hv : cpu_output[indices[i]] = cpu_output.getD indices[i] 0 := by
        simp [List.getD_eq_getElem?_getD, List.getElem?_eq_getElem hlt]
      rw [hv, List.drop_eq_getElem_cons hi]
      by_cases hc : cpu_output.getD indices[i] 0 / sum > 0.005
      · have ha : aboveThreshold cpu_output sum indices[i] = true := by
          simpa [aboveThreshold, probability] using hc
        rw [if_pos hc, printLine_eq]
        simp only
        rw [ih (i + 1) _ hi (by omega)]
        simp only [List.takeWhile_cons, ha, List.all_cons, List.map_cons, if_true,
          Bool.true_and, List.append_assoc, List.singleton_append]
      · have ha : aboveThreshold cpu_output sum indices[i] = false := by
          simpa [aboveThreshold, probability] using hc
        rw [if_neg hc]
        simp only [List.takeWhile_cons, ha, List.all_cons, List.map_nil, Bool.false_and,
          List.append_nil]
        simp
    · have hi2 : i = indices.length := le_antisymm h1 hi
      subst hi2
      simp

theorem postprocessResults_eq {K : Type} [LinearOrderedField K] (S : StdSort) (expf : K → K)
    (classes : List String) (gpu_output : List K) :
    postprocessResults S expf classes gpu_output =
      (((ranking S (expTransform expf gpu_output)).takeWhile
          (aboveThreshold (expTransform expf gpu_output)
            (accumulate (expTransform expf gpu_output)))).map
          (lineOf classes (expTransform expf gpu_output)
            (accumulate (expTransform expf gpu_output))),
       if (ranking S (expTransform expf gpu_output)).all
            (aboveThreshold (expTransform expf gpu_output)
              (accumulate (expTransform expf gpu_output)))
         then LoopExit.indicesOutOfRange gpu_output.length else LoopExit.belowThreshold) := by
  have hp := ranking_perm S (expTransform expf gpu_output)
  have hidx : ∀ idx ∈ ranking S (expTransform expf gpu_output),
      idx < (expTransform expf gpu_output).length :=
    fun a ha => List.mem_range.1 (hp.subset ha)
  have hlen : (ranking S (expTransform expf gpu_output)).length = gpu_output.length := by
    rw [hp.length_eq]
    simp [expTransform]
  unfold postprocessResults
  simp only
  rw [emitLoop_eq classes _ _ _ hidx _ 0 [] (Nat.zero_le _) (by omega)]
  simp [hlen]

/-- C6. For every label table (the empty one included) and every class index,
the loop body attaches the table entry at that index when the index is below
the table length and no name otherwise; every line printed by
`postprocessResults` is of that form, and the run never ends in an
out-of-range read of the label table. -/
theorem label_lookup_bounds_checked {K : Type} [LinearOrderedField K] (S : StdSort)
    (expf : K → K) (classes : List String) (gpu_output : List K) :
    (∀ (v sum : K) (idx : Nat),
      printLine classes v sum idx =
        Except.ok ⟨if h : idx < classes.length then some (classes.get ⟨idx, h⟩) else none,
          100 * v / sum, idx⟩) ∧
    (∀ line ∈ (postprocessResults S expf classes gpu_output).1,
      line.className =
        if h : line.index < classes.length then some (classes.get ⟨line.index, h⟩) else none) ∧
    (∀ idx, (postprocessResults S expf classes gpu_output).2 ≠ LoopExit.labelOutOfRange idx) := by
  refine ⟨?_, ?_, ?_⟩
  · intro v sum idx
    unfold printLine
    by_cases h : idx < classes.length
    · simp [h, List.get?_eq_getElem?, List.getElem?_eq_getElem h]
    · simp [h]
  · intro line hl
    rw [postprocessResults_eq] at hl
    obtain ⟨idx, _, rfl⟩ := List.mem_map.1 hl
    rfl
  · intro idx
    rw [postprocessResults_eq]
    simp only
    split <;> simp

/-! ## Emission: where the loop ends -/

theorem all_ranking_iff {K : Type} [LinearOrderedField K] (S : StdSort) (cpu_output : List K)
    (p : Nat → Bool) :
    (ranking S cpu_output).all p = true ↔ ∀ idx, idx < cpu_output.length → p idx = true := by
  have hp := ranking_perm S cpu_output
  rw [List.all_eq_true]
  constructor
  · intro h idx hidx
    exact h idx (hp.mem_iff.2 (List.mem_range.2 hidx))
  · intro h idx hidx
    exact h idx (List.mem_range.1 (hp.mem_iff.1 hidx))

/-- The printing loop ends by its own test exactly when some class has a
probability not above the threshold; otherwise, after printing every class,
it reads `indices[n]`. -/
theorem postprocessResults_exit {K : Type} [LinearOrderedField K] (S : StdSort) (expf : K → K)
    (classes : List String) (gpu_output : List K) :
    ((∃ idx, idx < gpu_output.length ∧
        ¬ probability (expTransform expf gpu_output)
            (accumulate (expTransform expf gpu_output)) idx > 0.005) →
      (postprocessResults S expf classes gpu_output).2 = LoopExit.belowThreshold) ∧
    ((∀ idx, idx < gpu_output.length →
        probability (expTransform expf gpu_output)
            (accumulate (expTransform expf gpu_output)) idx > 0.005) →
      (postprocessResults S expf classes gpu_output).2
        = LoopExit.indicesOutOfRange gpu_output.length) := by
  have hlen : (expTransform expf gpu_output).length = gpu_output.length := by
    simp [expTransform]
  rw [postprocessResults_eq]
  simp only
  constructor
  · rintro ⟨idx, hidx, hnot⟩
    rw [if_neg]
    rw [all_ranking_iff]
    intro hall
    have := hall idx (by rw [hlen]; exact hidx)
    exact hnot (by simpa [aboveThreshold] using this)
  · intro hall
    rw [if_pos]
    rw [all_ranking_iff]
    intro idx hidx
    have := hall idx (by rw [← hlen]; exact hidx)
    simpa [aboveThreshold] using this

/-- With at least 200 classes some probability is at most 1/200, so over the
real numbers the loop ends by its own test. -/
theorem postprocessResults_stops_of_large (S : StdSort) (classes : List String)
    (scores : List ℝ) (hn : 200 ≤ scores.length) :
    (postprocessResults S Real.exp classes scores).2 = LoopExit.belowThreshold := by
  apply (postprocessResults_exit S Real.exp classes scores).1
  have hne : scores ≠ [] := by
    intro h
    rw [h] at hn
    simp at hn
  have hsum := sum_probability_expTransform scores hne
  have hrange : List.range scores.length ≠ [] := by
    intro h
    rw [List.range_eq_nil] at h
    omega
  have hle : ((List.range scores.length).map
      (probability (expTransform Real.exp scores) (accumulate (expTransform Real.exp scores)))).sum
      ≤ ((List.range scores.length).map (fun _ => (0.005 : ℝ))).sum := by
    rw [hsum]
    simp only [List.map_const', List.sum_replicate, List.length_range, nsmul_eq_mul]
    have : (200 : ℝ) ≤ (scores.length : ℝ) := by exact_mod_cast hn
    norm_num
    linarith
  obtain ⟨idx, hidx, hp⟩ := List.exists_le_of_sum_le hrange _ _ hle
  exact ⟨idx, List.mem_range.1 hidx, not_lt.2 hp⟩

/-- Whenever some class has a probability not above the threshold, the
printed entries are the longest prefix of the ranking whose probabilities all
exceed 0.005, in ranking order, and the loop stops at the first entry that
does not. -/
theorem emission_while_above_threshold {K : Type} [LinearOrderedField K] (S : StdSort) (expf : K → K)
    (classes : List String) (gpu_output : List K)
    (h : ∃ idx, idx < gpu_output.length ∧
        ¬ probability (expTransform expf gpu_output)
            (accumulate (expTransform expf gpu_output)) idx > 0.005) :
    postprocessResults S expf classes gpu_output =
      (((ranking S (expTransform expf gpu_output)).takeWhile
          (aboveThreshold (expTransform expf gpu_output)
            (accumulate (expTransform expf gpu_output)))).map
          (lineOf classes (expTransform expf gpu_output)
            (accumulate (expTransform expf gpu_output))),
       LoopExit.belowThreshold) := by
  have h2 := (postprocessResults_exit S expf classes gpu_output).1 h
  have h1 := postprocessResults_eq S expf classes gpu_output
  rw [Prod.ext_iff] at h1 ⊢
  exact ⟨h1.1, h2⟩

/-- The thresholding example of the specification: for the probabilities
`[0.6, 0.3, 0.09, 0.009, 0.001]` the first four entries are printed and the
fifth is not. -/
theorem emission_threshold_example (S : StdSort) (classes : List String) :
    (postprocessResults S Real.exp classes
        [Real.log 0.6, Real.log 0.3, Real.log 0.09, Real.log 0.009, Real.log 0.001]).1.map
        (fun line => line.index) = [0, 1, 2, 3] ∧
    (postprocessResults S Real.exp classes
        [Real.log 0.6, Real.log 0.3, Real.log 0.09, Real.log 0.009, Real.log 0.001]).2
        = LoopExit.belowThreshold := by
  have he : expTransform Real.exp
      [Real.log 0.6, Real.log 0.3, Real.log 0.09, Real.log 0.009, Real.log 0.001]
      = [0.6, 0.3, 0.09, 0.009, 0.001] := by
    simp only [expTransform, List.map_cons, List.map_nil]
    rw [Real.exp_log (by norm_num), Real.exp_log (by norm_num), Real.exp_log (by norm_num),
      Real.exp_log (by norm_num), Real.exp_log (by norm_num)]
  have hrk : ranking S ([0.6, 0.3, 0.09, 0.009, 0.001] : List ℝ) = [0, 1, 2, 3, 4] := by
    rw [ranking_of_strictly_decreasing S _ (by norm_num)]
    rfl
  rw [postprocessResults_eq, he, hrk]
  norm_num [accumulate, aboveThreshold, probability, lineOf]

/-- C10, evaluated at the score vector `[0.0]` (one class, probability 1).
The loop prints the single entry, increments `i` to 1 and evaluates its
condition again, reading `indices[1]` of a vector of length 1. -/
theorem emission_reads_past_end :
    postprocessResults stableSort Real.exp [] ([0] : List ℝ)
      = ([⟨none, 100, 0⟩], LoopExit.indicesOutOfRange 1) := by
  have hr : List.range 1 = [0] := rfl
  rw [postprocessResults_eq]
  norm_num [ranking, stableSort, insertionStdSort, expTransform, hr, insertionSortBy, insertBefore,
    accumulate, aboveThreshold, probability, lineOf]

/-- C2, evaluated at the score vector `[0.0, 0.0]` (probabilities 0.5 and
0.5).  No entry is at or below the threshold: both entries are printed and
the loop does not stop, it goes on to read `indices[2]`. -/
theorem emission_runs_past_ranking :
    postprocessResults stableSort Real.exp [] ([0, 0] : List ℝ)
      = ([⟨none, 50, 0⟩, ⟨none, 50, 1⟩], LoopExit.indicesOutOfRange 2) := by
  have hr : List.range 2 = [0, 1] := rfl
  rw [postprocessResults_eq]
  norm_num [ranking, stableSort, insertionStdSort, expTransform, hr, insertionSortBy, insertBefore,
    accumulate, aboveThreshold, probability, lineOf, scoreGreater]

/-! ## The transfer of the channel planes -/

/-- C5, evaluated on the shape (1,3,4,4) with the solid planes 1, 2 and 3.
The three copies all start at `gpu_input` and carry 0, 16 and 32 floats: the
first 16 slots end up holding plane 2, the next 16 hold what lies behind
plane 2 in host memory, the last 16 are never written, and the buffer is not
the planar layout of the three planes. -/
theorem preprocessImage_layout_broken :
    preprocessImage
        (some [List.replicate 16 (1 : ℚ), List.replicate 16 2, List.replicate 16 3])
        (List.replicate 48 Cell.unwritten) ⟨4, [1, 3, 4, 4, 0, 0, 0, 0]⟩
      = (List.replicate 16 (Cell.val 3) ++ List.replicate 16 Cell.undef
          ++ List.replicate 16 Cell.unwritten, PreprocessExit.done) ∧
    (preprocessImage
        (some [List.replicate 16 (1 : ℚ), List.replicate 16 2, List.replicate 16 3])
        (List.replicate 48 Cell.unwritten) ⟨4, [1, 3, 4, 4, 0, 0, 0, 0]⟩).1
      ≠ planarLayout [List.replicate 16 (1 : ℚ), List.replicate 16 2, List.replicate 16 3] := by
  constructor
  · decide
  · decide

theorem cudaMemcpy_keeps {K : Type} (dst : List (Cell K)) (src : List K) (bytes j : Nat)
    (h : bytes / sizeofFloat ≤ j) : (cudaMemcpy dst src bytes)[j]? = dst[j]? := by
  unfold cudaMemcpy
  rw [List.getElem?_map, List.getElem?_enum]
  cases hj : dst[j]? with
  | none => simp
  | some c =>
    have : ¬ j < bytes / sizeofFloat := by omega
    simp [this]

/-- Iteration `i` of the transfer loop writes slots below `i * W * H` only:
a slot at or beyond `k * W * H` for every iteration index `k` of the loop
keeps its content. -/
theorem transferLoop_keeps {K : Type} (chw : List (List K)) (input_width input_height : Int) :
    ∀ (todo i : Nat) (gpu_input : List (Cell K)) (j : Nat),
      (∀ k, k < i + todo → k * toSizeT input_width * toSizeT input_height ≤ j) →
      (transferLoop chw input_width input_height todo i gpu_input).1[j]? = gpu_input[j]? := by
  intro todo
  induction todo with
  | zero => intro i gpu_input j _; rfl
  | succ todo ih =>
    intro i gpu_input j hj
    unfold transferLoop
    cases hp : chw.get? i with
    | none => rfl
    | some plane =>
      simp only
      rw [ih (i + 1) _ j (fun k hk => hj k (by omega))]
      apply cudaMemcpy_keeps
      have h1 := hj i (by omega)
      have h2 : i * toSizeT input_width * toSizeT input_height * sizeofFloat % sizeModulus
          ≤ i * toSizeT input_width * toSizeT input_height * sizeofFloat := Nat.mod_le _ _
      have h3 : i * toSizeT input_width * toSizeT input_height * sizeofFloat / sizeofFloat
          = i * toSizeT input_width * toSizeT input_height :=
        Nat.mul_div_cancel _ (by decide)
      calc i * toSizeT input_width * toSizeT input_height * sizeofFloat % sizeModulus / sizeofFloat
          ≤ i * toSizeT input_width * toSizeT input_height * sizeofFloat / sizeofFloat :=
            Nat.div_le_div_right h2
        _ = i * toSizeT input_width * toSizeT input_height := h3
        _ ≤ j := h1

theorem toSizeT_natCast (n : Nat) (h : n < sizeModulus) : toSizeT (n : Int) = n := by
  unfold toSizeT
  rw [Int.emod_eq_of_lt (Int.natCast_nonneg n) (by exact_mod_cast h)]
  simp

/-- For every shape (1, C, H, W) and every image, `preprocessImage` leaves
the slots of the last channel plane, from `(C - 1) * W * H` on, as they were:
the planar layout is never completed. -/
theorem preprocessImage_last_plane_untouched {K : Type} (chw : Option (List (List K)))
    (gpu_input : List (Cell K)) (C H W : Nat)
    (hC : C < sizeModulus) (hH : H < sizeModulus) (hW : W < sizeModulus)
    (j : Nat) (hj : (C - 1) * W * H ≤ j) :
    (preprocessImage chw gpu_input ⟨4, [1, C, H, W, 0, 0, 0, 0]⟩).1[j]? = gpu_input[j]? := by
  cases chw with
  | none => rfl
  | some planes =>
    simp only [preprocessImage, List.getD_cons_succ, List.getD_cons_zero]
    rw [toSizeT_natCast C hC]
    apply transferLoop_keeps
    intro k hk
    rw [toSizeT_natCast W hW, toSizeT_natCast H hH]
    have hk2 : k ≤ C - 1 := by omega
    calc k * W * H ≤ (C - 1) * W * H :=
          Nat.mul_le_mul_right _ (Nat.mul_le_mul_right _ hk2)
      _ ≤ j := hj

/-! ## The pipeline -/

theorem getSizeByDim_1344 : getSizeByDim ⟨4, [1, 3, 4, 4, 0, 0, 0, 0]⟩ = some 48 := by decide

theorem getSizeByDim_12 : getSizeByDim ⟨2, [1, 2, 0, 0, 0, 0, 0, 0]⟩ = some 2 := by decide

/-- C8, evaluated on a model that fails to parse.  `parseOnnxModel` reports
the error and returns with a null engine; `test` does not look at that and
goes on to `engine->getNbBindings()` on the null pointer. -/
theorem parse_failure_reaches_null_engine {K : Type} [LinearOrderedField K] (S : StdSort)
    (expf : K → K) (chw : Option (List (List K))) (classes : List String)
    (infer : List (Cell K) → List K) :
    parseOnnxModel ModelLoad.parseFailed = ([Event.parseError], Except.ok none) ∧
    (test S expf ModelLoad.parseFailed chw classes infer).events
      = [Event.parseError, Event.getNbBindings] ∧
    (test S expf ModelLoad.parseFailed chw classes infer).exit
      = PipelineExit.nullEngineDereference := by
  refine ⟨rfl, rfl, rfl⟩

/-- C7, evaluated on an engine with one input binding of shape (1,3,4,4) and
no output binding.  The run reports the configuration error and returns
without executing the engine, and the buffer allocated for binding 0 is still
allocated: the early return of lines 240-244 skips the `cudaFree` loop. -/
theorem config_error_leaks_buffer {K : Type} [LinearOrderedField K] (S : StdSort)
    (expf : K → K) (chw : Option (List (List K))) (classes : List String)
    (infer : List (Cell K) → List K) :
    (test S expf (ModelLoad.built ⟨[⟨true, ⟨4, [1, 3, 4, 4, 0, 0, 0, 0]⟩⟩]⟩)
        chw classes infer).events
      = [Event.getNbBindings, Event.cudaMalloc 0 192, Event.configError] ∧
    (test S expf (ModelLoad.built ⟨[⟨true, ⟨4, [1, 3, 4, 4, 0, 0, 0, 0]⟩⟩]⟩)
        chw classes infer).exit = PipelineExit.returned ∧
    liveBuffers (test S expf (ModelLoad.built ⟨[⟨true, ⟨4, [1, 3, 4, 4, 0, 0, 0, 0]⟩⟩]⟩)
        chw classes infer).events = [0] := by
  have h : test S expf (ModelLoad.built ⟨[⟨true, ⟨4, [1, 3, 4, 4, 0, 0, 0, 0]⟩⟩]⟩)
        chw classes infer
      = ⟨[Event.getNbBindings, Event.cudaMalloc 0 192, Event.configError], [], [],
          PipelineExit.returned⟩ := by
    simp [test, parseOnnxModel, allocateBuffers, getSizeByDim_1344, sizeofFloat, sizeModulus]
  rw [h]
  exact ⟨rfl, rfl, rfl⟩

/-- C9, evaluated on an engine with an input binding (1,3,4,4) and an output
binding (1,2) and an image that cannot be decoded.  `preprocessImage` leaves
the input buffer unwritten and returns; `test` then issues the execute step
and the postprocessing step all the same, whatever the engine computes. -/
theorem decode_failure_still_executes {K : Type} [LinearOrderedField K] (S : StdSort)
    (expf : K → K) (classes : List String) (infer : List (Cell K) → List K) :
    (test S expf
        (ModelLoad.built ⟨[⟨true, ⟨4, [1, 3, 4, 4, 0, 0, 0, 0]⟩⟩,
                           ⟨false, ⟨2, [1, 2, 0, 0, 0, 0, 0, 0]⟩⟩]⟩)
        none classes infer).input = List.replicate 48 Cell.unwritten ∧
    (test S expf
        (ModelLoad.built ⟨[⟨true, ⟨4, [1, 3, 4, 4, 0, 0, 0, 0]⟩⟩,
                           ⟨false, ⟨2, [1, 2, 0, 0, 0, 0, 0, 0]⟩⟩]⟩)
        none classes infer).events.take 6
      = [Event.getNbBindings, Event.cudaMalloc 0 192, Event.cudaMalloc 1 8,
         Event.imageLoadFailed, Event.enqueue, Event.postprocess] := by
  simp only [test, parseOnnxModel, allocateBuffers, getSizeByDim_1344, getSizeByDim_12,
    preprocessImage, List.filter, List.map]
  split <;> simp [sizeofFloat, sizeModulus]

theorem allocateBuffers_ok (batch_size : Nat) :
    ∀ (bs : List Binding) (i : Nat) (events : List Event) (sizes : List Nat),
      (∀ b ∈ bs, b.dims.WellFormed) →
      ∃ szs, szs.length = bs.length ∧
        allocateBuffers batch_size bs i events sizes
          = Except.ok (events ++ mallocEvents i szs, sizes ++ szs) := by
  intro bs
  induction bs with
  | nil =>
    intro i events sizes _
    exact ⟨[], rfl, by simp [allocateBuffers, mallocEvents]⟩
  | cons b rest ih =>
    intro i events sizes hwf
    have hb := getSizeByDim_eq b.dims (hwf b (List.mem_cons_self _ _))
    obtain ⟨szs, hlen, heq⟩ := ih (i + 1)
      (events ++ [Event.cudaMalloc i
        (((b.dims.extents.map toSizeT).prod % sizeModulus) * batch_size * sizeofFloat
          % sizeModulus)])
      (sizes ++ [((b.dims.extents.map toSizeT).prod % sizeModulus) * batch_size * sizeofFloat
          % sizeModulus])
      (fun b2 h2 => hwf b2 (List.mem_cons_of_mem _ h2))
    refine ⟨(((b.dims.extents.map toSizeT).prod % sizeModulus) * batch_size * sizeofFloat
          % sizeModulus) :: szs, by simp [hlen], ?_⟩
    unfold allocateBuffers
    rw [hb]
    simp only
    rw [heq]
    simp [mallocEvents]

theorem foldl_liveStep_mallocEvents :
    ∀ (szs : List Nat) (i : Nat) (live : List Nat),
      (mallocEvents i szs).foldl liveStep live = live ++ List.range' i szs.length := by
  intro szs
  induction szs with
  | nil => intro i live; simp [mallocEvents]
  | cons s rest ih =>
    intro i live
    simp only [mallocEvents, List.foldl_cons, liveStep, List.length_cons]
    rw [ih, List.range'_succ]
    simp

theorem enqueue_not_mem_mallocEvents :
    ∀ (szs : List Nat) (i : Nat), Event.enqueue ∉ mallocEvents i szs := by
  intro szs
  induction szs with
  | nil => intro i; simp [mallocEvents]
  | cons s rest ih =>
    intro i
    simp only [mallocEvents, List.mem_cons, not_or]
    exact ⟨by simp, ih (i + 1)⟩

/-- On every engine with well-formed binding shapes that lacks an input
binding or lacks an output binding, `test` reports the configuration error
and returns without executing the engine, and every buffer it allocated is
still allocated at that point. -/
theorem config_error_run {K : Type} [LinearOrderedField K] (S : StdSort)
    (expf : K → K) (engine : Engine) (chw : Option (List (List K))) (classes : List String)
    (infer : List (Cell K) → List K)
    (hwf : ∀ b ∈ engine.bindings, b.dims.WellFormed)
    (hcfg : engine.bindings.filter (fun b => b.isInput) = [] ∨
            engine.bindings.filter (fun b => !b.isInput) = []) :
    (test S expf (ModelLoad.built engine) chw classes infer).exit = PipelineExit.returned ∧
    Event.configError ∈ (test S expf (ModelLoad.built engine) chw classes infer).events ∧
    Event.enqueue ∉ (test S expf (ModelLoad.built engine) chw classes infer).events ∧
    liveBuffers (test S expf (ModelLoad.built engine) chw classes infer).events
      = List.range engine.bindings.length := by
  obtain ⟨szs, hlen, heq⟩ :=
    allocateBuffers_ok 1 engine.bindings 0 ([] ++ [Event.getNbBindings]) [] hwf
  have hrun : test S expf (ModelLoad.built engine) chw classes infer
      = ⟨([] ++ [Event.getNbBindings]) ++ mallocEvents 0 szs ++ [Event.configError], [], [],
          PipelineExit.returned⟩ := by
    unfold test
    simp only [parseOnnxModel]
    rw [heq]
    simp only
    rcases hcfg with h | h
    · rw [h]
      rfl
    · rw [h]
      cases engine.bindings.filter (fun b => b.isInput) <;> rfl
  rw [hrun]
  refine ⟨rfl, by simp, ?_, ?_⟩
  · simp [enqueue_not_mem_mallocEvents]
  · simp only [liveBuffers, List.foldl_append, List.foldl_cons, List.foldl_nil, liveStep,
      List.nil_append]
    rw [foldl_liveStep_mallocEvents, hlen]
    simp [List.range_eq_range']

/-- On every engine with well-formed binding shapes, an input binding and an
output binding, a run whose image cannot be decoded still executes the engine
and postprocesses, on an input buffer in which nothing was written. -/
theorem decode_failure_run {K : Type} [LinearOrderedField K] (S : StdSort)
    (expf : K → K) (engine : Engine) (classes : List String)
    (infer : List (Cell K) → List K)
    (hwf : ∀ b ∈ engine.bindings, b.dims.WellFormed)
    (hin : engine.bindings.filter (fun b => b.isInput) ≠ [])
    (hout : engine.bindings.filter (fun b => !b.isInput) ≠ []) :
    Event.imageLoadFailed ∈ (test S expf (ModelLoad.built engine) none classes infer).events ∧
    Event.enqueue ∈ (test S expf (ModelLoad.built engine) none classes infer).events ∧
    Event.postprocess ∈ (test S expf (ModelLoad.built engine) none classes infer).events ∧
    (∀ c ∈ (test S expf (ModelLoad.built engine) none classes infer).input,
      c = Cell.unwritten) := by
  obtain ⟨szs, hlen, heq⟩ :=
    allocateBuffers_ok 1 engine.bindings 0 ([] ++ [Event.getNbBindings]) [] hwf
  unfold test
  simp only [parseOnnxModel]
  rw [heq]
  simp only
  cases h1 : engine.bindings.filter (fun b => b.isInput) with
  | nil => exact absurd h1 hin
  | cons i0 irest =>
    cases h2 : engine.bindings.filter (fun b => !b.isInput) with
    | nil => exact absurd h2 hout
    | cons o0 orest =>
      simp only [List.map_cons, preprocessImage]
      split <;> simp

end sampleonnx
